import Mathlib

/-!
Shallow embedding of the contact deduplication tool (`contact-merge.py`):
the contact data model, field normalization, the fuzzy similarity scorer,
the field merger, and the two deduplication modes (link and merge),
together with proofs of the specified properties.

Contacts are modelled as association lists of string fields, mirroring the
Python ordered dictionaries.  Scores are modelled as rationals (the Python
code computes them as floats, but every operation involved is exact
arithmetic on small integers, so `ℚ` represents them faithfully).

The third-party fuzzy string library (`rapidfuzz`) is an external
collaborator of the repository.  Following the specification, its two
entry points are modelled by explicit pure functions: `ratio` is the
normalized edit-distance similarity of section 4.2 of the specification,
and `token_set_ratio` is a token-set overlap ratio that is symmetric,
order- and duplication-insensitive, and equal to 100 on identical token
sets, as section 4.2 requires.
-/

/-! ## String primitives mirroring the Python ones -/

/-- Characters removed from the ends of a value by Python `str.strip()`. -/
def stripChars (l : List Char) : List Char :=
  ((l.dropWhile Char.isWhitespace).reverse.dropWhile Char.isWhitespace).reverse

/-- Python `str.strip()`: removes leading and trailing whitespace. -/
def pyStrip (s : String) : String := ⟨stripChars s.data⟩

/-- Splitting a character list on every occurrence of a separator character,
keeping empty segments, as Python `str.split(sep)` does.  The empty list
yields a single empty segment. -/
def splitOnChar (c : Char) : List Char → List (List Char)
  | [] => [[]]
  | x :: xs =>
    match splitOnChar c xs with
    | [] => [[]]
    | g :: gs => if x = c then [] :: g :: gs else (x :: g) :: gs

/-- Python `s.split(';')`. -/
def pySplit (s : String) : List String := (splitOnChar ';' s.data).map (fun g => ⟨g⟩)

/-- Source `normalize_phone`: remove non-digit characters from a phone number. -/
def normalize_phone (phone : String) : String := ⟨phone.data.filter Char.isDigit⟩

/-! ## The contact record model -/

/-- A contact is an ordered field map, as produced by the importers. -/
abbrev Contact := List (String × String)

/-- Field lookup with default `""`, modelling `contact.get(key, "")` (and the
truthiness test `contact.get(key)`, since both `None` and `""` are falsy). -/
def cget : Contact → String → String
  | [], _ => ""
  | p :: rest, k => if p.1 = k then p.2 else cget rest k

/-- Field assignment `contact[key] = v` on an ordered dictionary: an existing
key keeps its position, a new key is appended at the end. -/
def cset : Contact → String → String → Contact
  | [], k, v => [(k, v)]
  | p :: rest, k, v => if p.1 = k then (k, v) :: rest else p :: cset rest k v

/-- The field names of a contact, in order. -/
def contactKeys (c : Contact) : List String := c.map Prod.fst

/-! ## The fuzzy similarity primitives (modelling `rapidfuzz`) -/

/-- Modelled from the spec: the character-level edit distance underlying the
similarity ratio of section 4.2 (the repository delegates this to the
external `rapidfuzz` library).  Structured so that every equation is
definitional. -/
def levStep (x : Char) (f : List Char → Nat) : List Char → Nat
  | [] => f [] + 1
  | y :: ys => if x = y then f ys
               else 1 + min (f ys) (min (levStep x f ys) (f (y :: ys)))

/-- Modelled from the spec: Levenshtein edit distance between character lists. -/
def lev : List Char → List Char → Nat
  | [] => fun ys => ys.length
  | x :: xs => levStep x (lev xs)

/-- Modelled from the spec: the normalized edit-distance similarity ratio of
section 4.2, `100 * (1 - distance / max(len a, len b))`, on a 0–100 scale,
with the ratio of two empty strings taken as 100 (the library's convention;
the repository never reaches this case because empty values are filtered). -/
def ratio (a b : String) : ℚ :=
  if max a.data.length b.data.length = 0 then 100
  else 100 * (1 - (lev a.data b.data : ℚ) / (max a.data.length b.data.length : ℚ))

/-- Modelled from the spec: the word tokens of a full name, with duplicates
collapsed (token-set comparison is duplication-insensitive). -/
def tokenSet (s : String) : Finset String :=
  ((s.splitOn " ").filter (fun t => t ≠ "")).toFinset

/-- Modelled from the spec: a token-set overlap ratio on a 0–100 scale:
symmetric, insensitive to token order and duplication, and 100 exactly on
equal token sets (section 4.2; the repository delegates this to the
external `rapidfuzz` library). -/
def token_set_ratio (a b : String) : ℚ :=
  if tokenSet a = tokenSet b then 100
  else 100 * ((tokenSet a ∩ tokenSet b).card : ℚ) / ((tokenSet a ∪ tokenSet b).card : ℚ)

/-- Python `max` over a list of scores (only used on non-empty lists). -/
def listMax : List ℚ → ℚ
  | [] => 0
  | x :: xs => xs.foldl max x

/-! ## The similarity scorer (`compute_match_score`) -/

/-- The normalized telephone sub-values of a contact:
`[normalize_phone(p) for p in contact['tel'].split(';') if p.strip()]`. -/
def phonesOf (c : Contact) : List String :=
  ((pySplit (cget c "tel")).filter (fun p => pyStrip p ≠ "")).map normalize_phone

/-- Python `str.lower()`: lower-case every character. -/
def pyLower (s : String) : String := ⟨s.data.map Char.toLower⟩

/-- The normalized email sub-values of a contact:
`[p.strip().lower() for p in contact['email'].split(';') if p.strip()]`. -/
def emailsOf (c : Contact) : List String :=
  ((pySplit (cget c "email")).filter (fun p => pyStrip p ≠ "")).map
    (fun p => pyLower (pyStrip p))

/-- The cross-product phone scores: `fuzz.ratio(pa, pb)` for every pair of
non-empty normalized phones. -/
def phone_scores (a b : Contact) : List ℚ :=
  (phonesOf a).flatMap (fun pa => (phonesOf b).filterMap (fun pb =>
    if pa ≠ "" ∧ pb ≠ "" then some (ratio pa pb) else none))

/-- The cross-product email scores: `fuzz.ratio(ea, eb)` for every pair of
non-empty normalized emails. -/
def email_scores (a b : Contact) : List ℚ :=
  (emailsOf a).flatMap (fun ea => (emailsOf b).filterMap (fun eb =>
    if ea ≠ "" ∧ eb ≠ "" then some (ratio ea eb) else none))

/-- The list of collected sub-scores of `compute_match_score`: the maximal
phone score (when both contacts have a `tel` value and at least one pair of
non-empty normalized phones exists), then the maximal email score (same
condition for `email`), then the token-set name score (when both contacts
have a non-empty `fn`). -/
def scoresList (a b : Contact) : List ℚ :=
  (if cget a "tel" ≠ "" ∧ cget b "tel" ≠ "" ∧ phone_scores a b ≠ [] then
     [listMax (phone_scores a b)] else [])
  ++ (if cget a "email" ≠ "" ∧ cget b "email" ≠ "" ∧ email_scores a b ≠ [] then
     [listMax (email_scores a b)] else [])
  ++ (if cget a "fn" ≠ "" ∧ cget b "fn" ≠ "" then
     [token_set_ratio (cget a "fn") (cget b "fn")] else [])

/-- Source `compute_match_score`: the arithmetic mean of the collected
sub-scores, or 0 when no field category was comparable. -/
def compute_match_score (a b : Contact) : ℚ :=
  if scoresList a b ≠ [] then (scoresList a b).sum / ((scoresList a b).length : ℚ)
  else 0

/-! ## The field merger (`merge_contacts`) -/

/-- The value a master field takes after absorbing a duplicate's value for
the same field, following the body of the loop in `merge_contacts`:
both values are stripped; an empty master value is replaced by the stripped
duplicate value; a stripped duplicate value not occurring among the
`;`-separated sub-values of the stripped master value is appended with a
`;`; otherwise the stored master value is left unchanged. -/
def mergedValue (mraw v : String) : String :=
  if pyStrip mraw = "" ∧ pyStrip v ≠ "" then pyStrip v
  else if pyStrip v ≠ "" ∧ pyStrip v ∉ pySplit (pyStrip mraw) then
    (if pyStrip mraw ≠ "" then pyStrip mraw ++ ";" ++ pyStrip v else pyStrip v)
  else mraw

/-- One iteration of the loop in `merge_contacts`, processing the duplicate
field `(k, v)`.  The fields `uid`, `match` and `certainty` are skipped. -/
def mergeField (m : Contact) (k v : String) : Contact :=
  if k = "uid" ∨ k = "match" ∨ k = "certainty" then m
  else if pyStrip (cget m k) = "" ∧ pyStrip v ≠ "" then cset m k (pyStrip v)
  else if pyStrip v ≠ "" ∧ pyStrip v ∉ pySplit (pyStrip (cget m k)) then
    cset m k (if pyStrip (cget m k) ≠ ""
              then pyStrip (cget m k) ++ ";" ++ pyStrip v else pyStrip v)
  else m

/-- Source `merge_contacts`: fold the duplicate's fields into the master. -/
def merge_contacts (master dup : Contact) : Contact :=
  dup.foldl (fun acc p => mergeField acc p.1 p.2) master

/-- The set of meaningful sub-values carried by a stored field value: its
`;`-separated segments, each stripped of surrounding whitespace, with the
blank segment discarded. -/
def subValues (s : String) : Finset String :=
  ((pySplit s).map pyStrip).toFinset \ {""}

/-! ## The deduplication engine (`deduplicate_contacts`) -/

/-- Annotation of a linked contact: `current['match'] = uid` followed by
`current['certainty'] = str(score)`. -/
def annotate (c : Contact) (uid : String) (s : ℚ) : Contact :=
  cset (cset c "match" uid) "certainty" (toString s)

/-- The inner loop of link mode: scan the earlier contacts in order and
return the uid and score of the first one whose score reaches the
threshold. -/
def findMatch (current : Contact) (t : ℚ) : List Contact → Option (String × ℚ)
  | [] => none
  | cand :: rest =>
      if compute_match_score current cand ≥ t then
        some (cget cand "uid", compute_match_score current cand)
      else findMatch current t rest

/-- One step of link mode: append the current contact, annotated when a
match among the already processed contacts was found. -/
def linkStep (t : ℚ) (acc : List Contact) (current : Contact) : List Contact :=
  acc ++ [match findMatch current t acc with
          | some (u, s) => annotate current u s
          | none => current]

/-- Link mode of `deduplicate_contacts`: each contact after the first is
compared against all previous (possibly annotated) contacts. -/
def link_dedup (t : ℚ) (contacts : List Contact) : List Contact :=
  contacts.foldl (linkStep t) []

/-- The inner loop of merge mode: scan the masters in order; at the first
master whose score reaches the threshold, merge the contact into it (or
leave it unchanged on a dry run) and stop; `none` when no master matches. -/
def absorb (t : ℚ) (dry : Bool) (contact : Contact) : List Contact → Option (List Contact)
  | [] => none
  | m :: rest =>
      if compute_match_score contact m ≥ t then
        some ((if dry then m else merge_contacts m contact) :: rest)
      else (absorb t dry contact rest).map (fun ms => m :: ms)

/-- One step of merge mode: a contact matched by some master is absorbed,
otherwise it becomes a new master. -/
def mergeStep (t : ℚ) (dry : Bool) (masters : List Contact) (contact : Contact) :
    List Contact :=
  match absorb t dry contact masters with
  | some ms => ms
  | none => masters ++ [contact]

/-- Merge mode of `deduplicate_contacts`: only master contacts are kept. -/
def merge_dedup (t : ℚ) (dry : Bool) (contacts : List Contact) : List Contact :=
  contacts.foldl (mergeStep t dry) []

/-- Source `deduplicate_contacts`. -/
def deduplicate_contacts (contacts : List Contact) (threshold : ℚ)
    (merge dry_run : Bool) : List Contact :=
  if merge = false then link_dedup threshold contacts
  else merge_dedup threshold dry_run contacts

/-- Source `compute_field_order`: first-seen order of field names, with
`match` and `certainty` excluded. -/
def compute_field_order (contacts : List Contact) : List String :=
  contacts.foldl (fun order c =>
    c.foldl (fun order p =>
      if p.1 = "match" ∨ p.1 = "certainty" then order
      else if p.1 ∈ order then order else order ++ [p.1]) order) []

/-! ## Basic lemmas about the record model -/

theorem cget_cset_self (c : Contact) (k v : String) : cget (cset c k v) k = v := by
  induction c with
  | nil => simp [cset, cget]
  | cons p rest ih =>
    by_cases h : p.1 = k
    · simp [cset, h, cget]
    · simp [cset, h, cget, ih]

theorem cget_cset_ne (c : Contact) (k v k2 : String) (h : k2 ≠ k) :
    cget (cset c k v) k2 = cget c k2 := by
  have hk : k ≠ k2 := Ne.symm h
  induction c with
  | nil => simp [cset, cget, hk]
  | cons p rest ih =>
    by_cases hp : p.1 = k
    · simp only [cset, if_pos hp, cget]
      rw [if_neg hk, hp, if_neg hk]
    · simp only [cset, if_neg hp, cget, ih]

theorem cget_eq_empty_of_not_mem (c : Contact) (k : String)
    (h : k ∉ contactKeys c) : cget c k = "" := by
  induction c with
  | nil => rfl
  | cons p rest ih =>
    simp only [contactKeys, List.map_cons, List.mem_cons] at h
    push_neg at h
    rw [cget.eq_def]
    simp only [if_neg (Ne.symm h.1)]
    exact ih (by simpa [contactKeys] using h.2)

theorem cget_mem (c : Contact) (k : String) (h : cget c k ≠ "") :
    (k, cget c k) ∈ c := by
  induction c with
  | nil => simp [cget] at h
  | cons p rest ih =>
    by_cases hp : p.1 = k
    · simp only [cget, if_pos hp] at h ⊢
      have hp2 : (k, p.2) = p := by rw [← hp]
      rw [hp2]
      exact List.mem_cons_self _ _
    · simp only [cget, if_neg hp] at h ⊢
      exact List.mem_cons_of_mem _ (ih h)

/-! ## Lemmas about `listMax` -/

theorem foldl_max_init_le (xs : List ℚ) (a : ℚ) : a ≤ xs.foldl max a := by
  induction xs generalizing a with
  | nil => simp
  | cons x xs ih => exact le_trans (le_max_left a x) (ih (max a x))

theorem foldl_max_le_of_mem (xs : List ℚ) (a x : ℚ) (hx : x ∈ xs) :
    x ≤ xs.foldl max a := by
  induction xs generalizing a with
  | nil => simp at hx
  | cons y ys ih =>
    rcases List.mem_cons.mp hx with h | h
    · subst h
      exact le_trans (le_max_right a x) (foldl_max_init_le ys (max a x))
    · exact ih (max a y) h

theorem foldl_max_mem (xs : List ℚ) (a : ℚ) : xs.foldl max a = a ∨ xs.foldl max a ∈ xs := by
  induction xs generalizing a with
  | nil => simp
  | cons x xs ih =>
    rcases ih (max a x) with h | h
    · rcases max_choice a x with hm | hm
      · left; rw [List.foldl_cons, h, hm]
      · right; rw [List.foldl_cons, h, hm]; exact List.mem_cons_self _ _
    · right; exact List.mem_cons_of_mem _ h

theorem listMax_mem (l : List ℚ) (h : l ≠ []) : listMax l ∈ l := by
  cases l with
  | nil => exact absurd rfl h
  | cons x xs =>
    rcases foldl_max_mem xs x with hm | hm
    · rw [listMax, hm]; exact List.mem_cons_self _ _
    · exact List.mem_cons_of_mem _ hm

theorem le_listMax (l : List ℚ) (x : ℚ) (hx : x ∈ l) : x ≤ listMax l := by
  cases l with
  | nil => simp at hx
  | cons y ys =>
    rcases List.mem_cons.mp hx with h | h
    · subst h; exact foldl_max_init_le ys x
    · exact foldl_max_le_of_mem ys y x h

theorem listMax_eq_of_mem_of_le (l : List ℚ) (b : ℚ) (hmem : b ∈ l)
    (hle : ∀ x ∈ l, x ≤ b) : listMax l = b :=
  le_antisymm (hle _ (listMax_mem l (List.ne_nil_of_mem hmem))) (le_listMax l b hmem)

theorem listMax_congr (l l2 : List ℚ) (hne : l ≠ [])
    (h : ∀ x, x ∈ l ↔ x ∈ l2) : listMax l = listMax l2 := by
  have hne2 : l2 ≠ [] := by
    rcases List.exists_mem_of_ne_nil l hne with ⟨x, hx⟩
    exact List.ne_nil_of_mem ((h x).mp hx)
  exact le_antisymm
    (le_listMax l2 _ ((h _).mp (listMax_mem l hne)))
    ((h _).mpr (listMax_mem l2 hne2) |> le_listMax l _)

/-! ## Lemmas about the edit distance and the similarity ratio -/

theorem lev_nil_left (ys : List Char) : lev [] ys = ys.length := rfl

theorem lev_nil_right (xs : List Char) : lev xs [] = xs.length := by
  induction xs with
  | nil => rfl
  | cons x xs ih =>
    show levStep x (lev xs) [] = xs.length + 1
    rw [levStep, ih]

theorem lev_cons_cons (x y : Char) (xs ys : List Char) :
    lev (x :: xs) (y :: ys) =
      if x = y then lev xs ys
      else 1 + min (lev xs ys) (min (lev (x :: xs) ys) (lev xs (y :: ys))) := rfl

theorem lev_self (xs : List Char) : lev xs xs = 0 := by
  induction xs with
  | nil => rfl
  | cons x xs ih => rw [lev_cons_cons, if_pos rfl, ih]

theorem lev_symm (xs ys : List Char) : lev xs ys = lev ys xs := by
  induction xs generalizing ys with
  | nil => rw [lev_nil_left, lev_nil_right]
  | cons x xs ihx =>
    induction ys with
    | nil => rw [lev_nil_left, lev_nil_right]
    | cons y ys ihy =>
      rw [lev_cons_cons, lev_cons_cons]
      by_cases h : x = y
      · rw [if_pos h, if_pos h.symm, ihx ys]
      · rw [if_neg h, if_neg (fun hh => h hh.symm), ihx ys, ihy, ihx (y :: ys),
          Nat.min_comm (lev ys (x :: xs)) (lev (y :: ys) xs)]

theorem lev_le_max (xs ys : List Char) : lev xs ys ≤ max xs.length ys.length := by
  induction xs generalizing ys with
  | nil => rw [lev_nil_left]; exact le_max_right _ _
  | cons x xs ih =>
    cases ys with
    | nil => rw [lev_nil_right]; exact le_max_left _ _
    | cons y ys =>
      rw [lev_cons_cons]
      have hb : lev xs ys ≤ max xs.length ys.length := ih ys
      by_cases h : x = y
      · rw [if_pos h]
        calc lev xs ys ≤ max xs.length ys.length := hb
          _ ≤ max (x :: xs).length (y :: ys).length := by
              simp only [List.length_cons]
              exact max_le_max (Nat.le_succ _) (Nat.le_succ _)
      · rw [if_neg h]
        calc 1 + min (lev xs ys) (min (lev (x :: xs) ys) (lev xs (y :: ys)))
            ≤ 1 + lev xs ys := by
              exact Nat.add_le_add_left (Nat.min_le_left _ _) 1
          _ ≤ 1 + max xs.length ys.length := Nat.add_le_add_left hb 1
          _ = max (x :: xs).length (y :: ys).length := by
              simp only [List.length_cons]
              omega

theorem ratio_self (a : String) : ratio a a = 100 := by
  rw [ratio]
  by_cases h : max a.data.length a.data.length = 0
  · rw [if_pos h]
  · rw [if_neg h, lev_self]
    push_cast
    rw [zero_div, sub_zero, mul_one]

theorem ratio_symm (a b : String) : ratio a b = ratio b a := by
  rw [ratio, ratio, lev_symm, Nat.max_comm a.data.length b.data.length,
    max_comm ((a.data.length : ℚ)) ((b.data.length : ℚ))]

theorem ratio_le_100 (a b : String) : ratio a b ≤ 100 := by
  rw [ratio]
  by_cases h : max a.data.length b.data.length = 0
  · rw [if_pos h]
  · rw [if_neg h]
    have hpos : (0 : ℚ) < (max a.data.length b.data.length : ℚ) := by
      exact_mod_cast Nat.pos_of_ne_zero h
    have hq : (0 : ℚ) ≤ (lev a.data b.data : ℚ) / (max a.data.length b.data.length : ℚ) :=
      div_nonneg (by positivity) (le_of_lt hpos)
    nlinarith

/-! ## Lemmas about the token-set ratio -/

theorem token_set_ratio_self (a : String) : token_set_ratio a a = 100 := by
  rw [token_set_ratio, if_pos rfl]

theorem token_set_ratio_symm (a b : String) : token_set_ratio a b = token_set_ratio b a := by
  rw [token_set_ratio, token_set_ratio, Finset.inter_comm, Finset.union_comm]
  by_cases h : tokenSet a = tokenSet b
  · rw [if_pos h, if_pos h.symm]
  · rw [if_neg h, if_neg (fun hh => h hh.symm)]

/-! ## Membership in the cross-product score lists -/

theorem mem_cross (A B : List String) (x : ℚ) :
    x ∈ A.flatMap (fun pa => B.filterMap (fun pb =>
      if pa ≠ "" ∧ pb ≠ "" then some (ratio pa pb) else none)) ↔
    ∃ pa, pa ∈ A ∧ ∃ pb, pb ∈ B ∧ pa ≠ "" ∧ pb ≠ "" ∧ ratio pa pb = x := by
  constructor
  · intro hx
    rcases List.mem_flatMap.mp hx with ⟨pa, hpa, hmem⟩
    rcases List.mem_filterMap.mp hmem with ⟨pb, hpb, heq⟩
    by_cases hc : pa ≠ "" ∧ pb ≠ ""
    · rw [if_pos hc] at heq
      exact ⟨pa, hpa, pb, hpb, hc.1, hc.2, Option.some.inj heq⟩
    · rw [if_neg hc] at heq
      exact Option.noConfusion heq
  · rintro ⟨pa, hpa, pb, hpb, h1, h2, heq⟩
    refine List.mem_flatMap.mpr ⟨pa, hpa, List.mem_filterMap.mpr ⟨pb, hpb, ?_⟩⟩
    rw [if_pos ⟨h1, h2⟩, heq]

theorem mem_phone_scores (a b : Contact) (x : ℚ) :
    x ∈ phone_scores a b ↔
    ∃ pa, pa ∈ phonesOf a ∧ ∃ pb, pb ∈ phonesOf b ∧ pa ≠ "" ∧ pb ≠ "" ∧ ratio pa pb = x := by
  simp only [phone_scores]
  exact mem_cross _ _ _

theorem mem_email_scores (a b : Contact) (x : ℚ) :
    x ∈ email_scores a b ↔
    ∃ ea, ea ∈ emailsOf a ∧ ∃ eb, eb ∈ emailsOf b ∧ ea ≠ "" ∧ eb ≠ "" ∧ ratio ea eb = x := by
  simp only [email_scores]
  exact mem_cross _ _ _

theorem mem_phone_scores_swap (a b : Contact) (x : ℚ) :
    x ∈ phone_scores a b ↔ x ∈ phone_scores b a := by
  rw [mem_phone_scores, mem_phone_scores]
  constructor
  · rintro ⟨pa, hpa, pb, hpb, h1, h2, heq⟩
    exact ⟨pb, hpb, pa, hpa, h2, h1, by rw [ratio_symm]; exact heq⟩
  · rintro ⟨pa, hpa, pb, hpb, h1, h2, heq⟩
    exact ⟨pb, hpb, pa, hpa, h2, h1, by rw [ratio_symm]; exact heq⟩

theorem mem_email_scores_swap (a b : Contact) (x : ℚ) :
    x ∈ email_scores a b ↔ x ∈ email_scores b a := by
  rw [mem_email_scores, mem_email_scores]
  constructor
  · rintro ⟨pa, hpa, pb, hpb, h1, h2, heq⟩
    exact ⟨pb, hpb, pa, hpa, h2, h1, by rw [ratio_symm]; exact heq⟩
  · rintro ⟨pa, hpa, pb, hpb, h1, h2, heq⟩
    exact ⟨pb, hpb, pa, hpa, h2, h1, by rw [ratio_symm]; exact heq⟩

theorem listMax_ext (l l2 : List ℚ) (h : ∀ x, x ∈ l ↔ x ∈ l2) : listMax l = listMax l2 := by
  by_cases hn : l = []
  · have hn2 : l2 = [] := by
      rw [List.eq_nil_iff_forall_not_mem]
      intro x hx
      rw [hn] at h
      exact (List.not_mem_nil x) ((h x).mpr hx)
    rw [hn, hn2]
  · exact listMax_congr l l2 hn h

theorem ne_nil_iff_of_mem_iff {l l2 : List ℚ} (h : ∀ x, x ∈ l ↔ x ∈ l2) :
    l ≠ [] ↔ l2 ≠ [] := by
  constructor
  · intro hne
    rcases List.exists_mem_of_ne_nil l hne with ⟨x, hx⟩
    exact List.ne_nil_of_mem ((h x).mp hx)
  · intro hne
    rcases List.exists_mem_of_ne_nil l2 hne with ⟨x, hx⟩
    exact List.ne_nil_of_mem ((h x).mpr hx)

/-! ## Symmetry of the scorer (helper for several claims) -/

theorem scoresList_symm (a b : Contact) : scoresList a b = scoresList b a := by
  have hp : listMax (phone_scores a b) = listMax (phone_scores b a) :=
    listMax_ext _ _ (mem_phone_scores_swap a b)
  have he : listMax (email_scores a b) = listMax (email_scores b a) :=
    listMax_ext _ _ (mem_email_scores_swap a b)
  have hpn : phone_scores a b ≠ [] ↔ phone_scores b a ≠ [] :=
    ne_nil_iff_of_mem_iff (mem_phone_scores_swap a b)
  have hen : email_scores a b ≠ [] ↔ email_scores b a ≠ [] :=
    ne_nil_iff_of_mem_iff (mem_email_scores_swap a b)
  have c1 : (cget a "tel" ≠ "" ∧ cget b "tel" ≠ "" ∧ phone_scores a b ≠ []) ↔
      (cget b "tel" ≠ "" ∧ cget a "tel" ≠ "" ∧ phone_scores b a ≠ []) := by
    constructor
    · rintro ⟨x, y, z⟩; exact ⟨y, x, hpn.mp z⟩
    · rintro ⟨x, y, z⟩; exact ⟨y, x, hpn.mpr z⟩
  have c2 : (cget a "email" ≠ "" ∧ cget b "email" ≠ "" ∧ email_scores a b ≠ []) ↔
      (cget b "email" ≠ "" ∧ cget a "email" ≠ "" ∧ email_scores b a ≠ []) := by
    constructor
    · rintro ⟨x, y, z⟩; exact ⟨y, x, hen.mp z⟩
    · rintro ⟨x, y, z⟩; exact ⟨y, x, hen.mpr z⟩
  have h1 : (if cget a "tel" ≠ "" ∧ cget b "tel" ≠ "" ∧ phone_scores a b ≠ [] then
      [listMax (phone_scores a b)] else []) =
      (if cget b "tel" ≠ "" ∧ cget a "tel" ≠ "" ∧ phone_scores b a ≠ [] then
      [listMax (phone_scores b a)] else []) := by
    rw [hp]
    exact if_congr c1 rfl rfl
  have h2 : (if cget a "email" ≠ "" ∧ cget b "email" ≠ "" ∧ email_scores a b ≠ [] then
      [listMax (email_scores a b)] else []) =
      (if cget b "email" ≠ "" ∧ cget a "email" ≠ "" ∧ email_scores b a ≠ [] then
      [listMax (email_scores b a)] else []) := by
    rw [he]
    exact if_congr c2 rfl rfl
  have h3 : (if cget a "fn" ≠ "" ∧ cget b "fn" ≠ "" then
      [token_set_ratio (cget a "fn") (cget b "fn")] else []) =
      (if cget b "fn" ≠ "" ∧ cget a "fn" ≠ "" then
      [token_set_ratio (cget b "fn") (cget a "fn")] else []) := by
    rw [token_set_ratio_symm (cget a "fn") (cget b "fn")]
    exact if_congr And.comm rfl rfl
  rw [scoresList, scoresList, h1, h2, h3]

theorem score_symm (a b : Contact) : compute_match_score a b = compute_match_score b a := by
  rw [compute_match_score, compute_match_score, scoresList_symm]

/-! ## Mean and self-score lemmas -/

theorem sum_all_100 (l : List ℚ) (h : ∀ x ∈ l, x = 100) : l.sum = 100 * l.length := by
  induction l with
  | nil => simp
  | cons x xs ih =>
    have hx := h x (List.mem_cons_self _ _)
    rw [List.sum_cons, hx, ih (fun y hy => h y (List.mem_cons_of_mem _ hy)), List.length_cons]
    push_cast
    ring

theorem mean_all_100 (l : List ℚ) (hne : l ≠ []) (h : ∀ x ∈ l, x = 100) :
    l.sum / (l.length : ℚ) = 100 := by
  rw [sum_all_100 l h]
  have hl : (l.length : ℚ) ≠ 0 :=
    Nat.cast_ne_zero.mpr (Nat.pos_iff_ne_zero.mp (List.length_pos.mpr hne))
  field_simp

theorem string_eq_empty_of_data (s : String) (h : s.data = []) : s = "" := by
  cases s with
  | mk l =>
    have hl : l = [] := h
    subst hl
    rfl

theorem listMax_phone_self (a : Contact) (hne : phone_scores a a ≠ []) :
    listMax (phone_scores a a) = 100 := by
  rcases List.exists_mem_of_ne_nil _ hne with ⟨y, hy⟩
  rcases (mem_phone_scores a a y).mp hy with ⟨pa, hpa, pb, hpb, h1, h2, heq⟩
  apply listMax_eq_of_mem_of_le
  · exact (mem_phone_scores a a 100).mpr ⟨pa, hpa, pa, hpa, h1, h1, ratio_self pa⟩
  · intro x hx
    rcases (mem_phone_scores a a x).mp hx with ⟨qa, hqa, qb, hqb, hq1, hq2, heq2⟩
    rw [← heq2]
    exact ratio_le_100 qa qb

theorem listMax_email_self (a : Contact) (hne : email_scores a a ≠ []) :
    listMax (email_scores a a) = 100 := by
  rcases List.exists_mem_of_ne_nil _ hne with ⟨y, hy⟩
  rcases (mem_email_scores a a y).mp hy with ⟨pa, hpa, pb, hpb, h1, h2, heq⟩
  apply listMax_eq_of_mem_of_le
  · exact (mem_email_scores a a 100).mpr ⟨pa, hpa, pa, hpa, h1, h1, ratio_self pa⟩
  · intro x hx
    rcases (mem_email_scores a a x).mp hx with ⟨qa, hqa, qb, hqb, hq1, hq2, heq2⟩
    rw [← heq2]
    exact ratio_le_100 qa qb

theorem scoresList_self_all_100 (a : Contact) : ∀ x ∈ scoresList a a, x = 100 := by
  intro x hx
  rw [scoresList] at hx
  rcases List.mem_append.mp hx with hx | hx
  · rcases List.mem_append.mp hx with hx | hx
    · by_cases hc : cget a "tel" ≠ "" ∧ cget a "tel" ≠ "" ∧ phone_scores a a ≠ []
      · rw [if_pos hc] at hx
        rw [List.mem_singleton.mp hx]
        exact listMax_phone_self a hc.2.2
      · rw [if_neg hc] at hx
        exact absurd hx (List.not_mem_nil x)
    · by_cases hc : cget a "email" ≠ "" ∧ cget a "email" ≠ "" ∧ email_scores a a ≠ []
      · rw [if_pos hc] at hx
        rw [List.mem_singleton.mp hx]
        exact listMax_email_self a hc.2.2
      · rw [if_neg hc] at hx
        exact absurd hx (List.not_mem_nil x)
  · by_cases hc : cget a "fn" ≠ "" ∧ cget a "fn" ≠ ""
    · rw [if_pos hc] at hx
      rw [List.mem_singleton.mp hx]
      exact token_set_ratio_self (cget a "fn")
    · rw [if_neg hc] at hx
      exact absurd hx (List.not_mem_nil x)

theorem tel_guard (a : Contact) (h : (phonesOf a).filter (fun p => p ≠ "") ≠ []) :
    cget a "tel" ≠ "" ∧ phone_scores a a ≠ [] := by
  have hg : cget a "tel" ≠ "" := by
    intro hc
    apply h
    have hz : phonesOf a = [] := by
      simp only [phonesOf, hc]
      rfl
    rw [hz]
    rfl
  rcases List.exists_mem_of_ne_nil _ h with ⟨p, hp⟩
  have hmem := List.mem_filter.mp hp
  have hpn : p ≠ "" := by simpa using hmem.2
  exact ⟨hg, List.ne_nil_of_mem
    ((mem_phone_scores a a (ratio p p)).mpr ⟨p, hmem.1, p, hmem.1, hpn, hpn, rfl⟩)⟩

theorem mem_emailsOf_ne (a : Contact) (e : String) (he : e ∈ emailsOf a) : e ≠ "" := by
  simp only [emailsOf, List.mem_map] at he
  rcases he with ⟨p, hp, rfl⟩
  have hpn : pyStrip p ≠ "" := by simpa using (List.mem_filter.mp hp).2
  intro hc
  apply hpn
  have hd : (pyStrip p).data.map Char.toLower = [] := congrArg String.data hc
  exact string_eq_empty_of_data _ (List.map_eq_nil_iff.mp hd)

theorem email_guard (a : Contact) (h : emailsOf a ≠ []) :
    cget a "email" ≠ "" ∧ email_scores a a ≠ [] := by
  have hg : cget a "email" ≠ "" := by
    intro hc
    apply h
    simp only [emailsOf, hc]
    rfl
  rcases List.exists_mem_of_ne_nil _ h with ⟨e, he⟩
  have hen : e ≠ "" := mem_emailsOf_ne a e he
  exact ⟨hg, List.ne_nil_of_mem
    ((mem_email_scores a a (ratio e e)).mpr ⟨e, he, e, he, hen, hen, rfl⟩)⟩

/-! ## Claim C4: symmetry of the similarity score -/

/-- C4: for every pair of records `a` and `b`, the similarity score is
symmetric: `score(a,b) = score(b,a)`. -/
theorem claim_C4_score_symmetric (a b : Contact) :
    compute_match_score a b = compute_match_score b a :=
  score_symm a b

/-! ## Claim C8: score is 0 when no field category is shared -/

/-- C8: for every pair of records in which no field category among `tel`,
`email`, `fn` is present (non-empty) on both sides — in particular when
neither record has any of them populated — the similarity score is 0. -/
theorem claim_C8_no_shared_category_score_zero (a b : Contact)
    (htel : cget a "tel" = "" ∨ cget b "tel" = "")
    (hemail : cget a "email" = "" ∨ cget b "email" = "")
    (hfn : cget a "fn" = "" ∨ cget b "fn" = "") :
    compute_match_score a b = 0 := by
  have h1 : ¬(cget a "tel" ≠ "" ∧ cget b "tel" ≠ "" ∧ phone_scores a b ≠ []) := by
    rintro ⟨x, y, z⟩
    rcases htel with h | h
    · exact x h
    · exact y h
  have h2 : ¬(cget a "email" ≠ "" ∧ cget b "email" ≠ "" ∧ email_scores a b ≠ []) := by
    rintro ⟨x, y, z⟩
    rcases hemail with h | h
    · exact x h
    · exact y h
  have h3 : ¬(cget a "fn" ≠ "" ∧ cget b "fn" ≠ "") := by
    rintro ⟨x, y⟩
    rcases hfn with h | h
    · exact x h
    · exact y h
  have hs : scoresList a b = [] := by
    rw [scoresList, if_neg h1, if_neg h2, if_neg h3]
    rfl
  rw [compute_match_score, hs]
  simp

/-- C8 witness: two records with no comparable field at all score 0. -/
theorem claim_C8_witness :
    compute_match_score [("uid", "0")] [("uid", "1")] = 0 :=
  claim_C8_no_shared_category_score_zero _ _ (Or.inl (by decide)) (Or.inl (by decide))
    (Or.inl (by decide))

/-! ## Claim C3: self-score -/

/-- C3 counterexample: the record `{tel: "-"}` has the comparable field
`tel` present and non-empty, yet its self-score is 0, because `"-"`
normalizes to the empty phone string and is then discarded, leaving no
sub-score at all.  This refutes the claim that `score(a,a) = 100` whenever
some comparable field is non-empty. -/
theorem claim_C3_counterexample :
    cget [("tel", "-")] "tel" ≠ "" ∧
      compute_match_score [("tel", "-")] [("tel", "-")] ≠ 100 := by
  constructor
  · decide
  · decide

/-- C3 (amended): the self-score is exactly 100 whenever the record has a
comparable field that survives normalization: a `tel` sub-value that still
contains a digit, a non-blank `email` sub-value, or a non-empty `fn`. -/
theorem claim_C3_amended_self_score (a : Contact)
    (h : (phonesOf a).filter (fun p => p ≠ "") ≠ [] ∨ emailsOf a ≠ [] ∨ cget a "fn" ≠ "") :
    compute_match_score a a = 100 := by
  have hall := scoresList_self_all_100 a
  have hne : scoresList a a ≠ [] := by
    intro hc
    rw [scoresList] at hc
    rcases List.append_eq_nil.mp hc with ⟨hc12, hc3⟩
    rcases List.append_eq_nil.mp hc12 with ⟨hc1, hc2⟩
    rcases h with h | h | h
    · rcases tel_guard a h with ⟨h1, h2⟩
      rw [if_pos ⟨h1, h1, h2⟩] at hc1
      exact List.cons_ne_nil _ _ hc1
    · rcases email_guard a h with ⟨h1, h2⟩
      rw [if_pos ⟨h1, h1, h2⟩] at hc2
      exact List.cons_ne_nil _ _ hc2
    · rw [if_pos ⟨h, h⟩] at hc3
      exact List.cons_ne_nil _ _ hc3
  rw [compute_match_score, if_pos hne]
  exact mean_all_100 _ hne hall

/-- C3 witness: a record with a plain name has self-score 100. -/
theorem claim_C3_amended_witness :
    compute_match_score [("fn", "John Smith")] [("fn", "John Smith")] = 100 :=
  claim_C3_amended_self_score _ (Or.inr (Or.inr (by decide)))

/-! ## Claim C10: dry_run has no effect in link mode -/

/-- C10: the `dry_run` flag has no effect in link mode: for every input
record list and threshold, `deduplicate_contacts` with `merge = false`
returns the same annotated list whether `dry_run` is true or false.  In the
source, the linking branch never reads `dry_run`, so the two runs coincide
definitionally. -/
theorem claim_C10_dry_run_no_effect_link (contacts : List Contact) (t : ℚ) :
    deduplicate_contacts contacts t false true =
      deduplicate_contacts contacts t false false := rfl

/-! ## Claim C9: phone normalization scenario -/

/-- The formatted-phone record of the C9 scenario. -/
def phoneRecA : Contact := [("uid", "0"), ("tel", "555-1234"), ("match", ""), ("certainty", "")]

/-- The unformatted-phone record of the C9 scenario. -/
def phoneRecB : Contact := [("uid", "1"), ("tel", "5551234"), ("match", ""), ("certainty", "")]

/-- C9: for the records whose only shared comparable field is `tel`, with
values `"555-1234"` and `"5551234"`, normalization makes the phones equal,
the overall score is 100, and under every threshold `t ≤ 100` the pair
links (the second record's `match` is set to the first one's uid) and
merges (merge mode returns a single master). -/
theorem score_single_pair (a b : Contact) (x y : String)
    (ha : cget a "tel" ≠ "") (hb : cget b "tel" ≠ "")
    (hps : phone_scores a b = [ratio x y]) (hxy : ratio x y = 100)
    (hae : cget a "email" = "" ∨ cget b "email" = "")
    (haf : cget a "fn" = "" ∨ cget b "fn" = "") :
    compute_match_score a b = 100 := by
  have hsl : scoresList a b = [ratio x y] := by
    rw [scoresList, hps, if_pos ⟨ha, hb, List.cons_ne_nil _ _⟩, if_neg, if_neg]
    · simp [listMax]
    · rintro ⟨h1, h2⟩
      rcases haf with h | h
      · exact h1 h
      · exact h2 h
    · rintro ⟨h1, h2, h3⟩
      rcases hae with h | h
      · exact h1 h
      · exact h2 h
  rw [compute_match_score, hsl, if_pos (List.cons_ne_nil _ _)]
  simp [hxy]

theorem claim_C9_phone_normalization (t : ℚ) (ht : t ≤ 100) :
    normalize_phone "555-1234" = normalize_phone "5551234" ∧
    compute_match_score phoneRecA phoneRecB = 100 ∧
    (deduplicate_contacts [phoneRecA, phoneRecB] t false false).map
      (fun c => cget c "match") = ["", "0"] ∧
    (deduplicate_contacts [phoneRecA, phoneRecB] t true false).length = 1 := by
  have hs : compute_match_score phoneRecB phoneRecA = 100 :=
    score_single_pair _ _ "5551234" "5551234" (by decide) (by decide) rfl
      (ratio_self _) (Or.inl (by decide)) (Or.inl (by decide))
  have hs2 : compute_match_score phoneRecA phoneRecB = 100 :=
    score_single_pair _ _ "5551234" "5551234" (by decide) (by decide) rfl
      (ratio_self _) (Or.inl (by decide)) (Or.inl (by decide))
  have hfm : findMatch phoneRecB t [phoneRecA] = some ("0", (100 : ℚ)) := by
    simp only [findMatch, hs]
    rw [if_pos (ge_iff_le.mpr ht)]
    rfl
  have hld : deduplicate_contacts [phoneRecA, phoneRecB] t false false
      = [phoneRecA, annotate phoneRecB "0" 100] := by
    show List.foldl (linkStep t) [] [phoneRecA, phoneRecB] = _
    rw [List.foldl_cons, List.foldl_cons, List.foldl_nil]
    have h1 : linkStep t [] phoneRecA = [phoneRecA] := rfl
    rw [h1]
    simp only [linkStep, hfm]
    rfl
  have habs : absorb t false phoneRecB [phoneRecA]
      = some [merge_contacts phoneRecA phoneRecB] := by
    simp only [absorb, hs]
    rw [if_pos (ge_iff_le.mpr ht)]
    rfl
  have hmd : deduplicate_contacts [phoneRecA, phoneRecB] t true false
      = [merge_contacts phoneRecA phoneRecB] := by
    show List.foldl (mergeStep t false) [] [phoneRecA, phoneRecB] = _
    rw [List.foldl_cons, List.foldl_cons, List.foldl_nil]
    have h1 : mergeStep t false [] phoneRecA = [phoneRecA] := rfl
    rw [h1]
    simp only [mergeStep, habs]
  refine ⟨by decide, hs2, ?_, ?_⟩
  · rw [hld]
    decide
  · rw [hmd]
    rfl

/-- C9 witness: the scenario at the default threshold 80. -/
theorem claim_C9_witness :
    normalize_phone "555-1234" = normalize_phone "5551234" ∧
    compute_match_score phoneRecA phoneRecB = 100 ∧
    (deduplicate_contacts [phoneRecA, phoneRecB] 80 false false).map
      (fun c => cget c "match") = ["", "0"] ∧
    (deduplicate_contacts [phoneRecA, phoneRecB] 80 true false).length = 1 :=
  claim_C9_phone_normalization 80 (by norm_num)

/-! ## Lemmas about whitespace stripping -/

theorem dropWhile_head?_not {α : Type} (p : α → Bool) (l : List α) (a : α)
    (h : (l.dropWhile p).head? = some a) : p a = false := by
  induction l with
  | nil => simp at h
  | cons x xs ih =>
    by_cases hx : p x
    · rw [List.dropWhile_cons, if_pos hx] at h
      exact ih h
    · rw [List.dropWhile_cons, if_neg hx] at h
      simp at h
      rw [← h]
      exact Bool.not_eq_true _ |>.mp hx

theorem dropWhile_noop {α : Type} (p : α → Bool) (l : List α)
    (h : ∀ a, l.head? = some a → p a = false) : l.dropWhile p = l := by
  cases l with
  | nil => rfl
  | cons x xs =>
    rw [List.dropWhile_cons, if_neg]
    rw [h x rfl]
    simp

theorem dropWhile_idem {α : Type} (p : α → Bool) (l : List α) :
    (l.dropWhile p).dropWhile p = l.dropWhile p :=
  dropWhile_noop p _ (fun a ha => dropWhile_head?_not p l a ha)

theorem getLast?_dropWhile {α : Type} (p : α → Bool) (l : List α)
    (h : l.dropWhile p ≠ []) : (l.dropWhile p).getLast? = l.getLast? := by
  induction l with
  | nil => simp at h
  | cons x xs ih =>
    by_cases hx : p x
    · rw [List.dropWhile_cons, if_pos hx] at h ⊢
      have hxs : xs ≠ [] := by
        intro hc
        rw [hc] at h
        exact h rfl
      rw [ih h]
      cases xs with
      | nil => exact absurd rfl hxs
      | cons y ys => rw [List.getLast?_cons_cons]
    · rw [List.dropWhile_cons, if_neg hx]

theorem stripChars_cons_ws (x : Char) (l : List Char) (h : x.isWhitespace) :
    stripChars (x :: l) = stripChars l := by
  rw [stripChars, stripChars, List.dropWhile_cons, if_pos h]

theorem stripChars_head_ws (l : List Char) :
    l.dropWhile Char.isWhitespace = [] → stripChars l = [] := by
  intro h
  rw [stripChars, h]
  rfl

theorem dropWhile_append_of_ne_nil {α : Type} (p : α → Bool) (l₁ l₂ : List α)
    (h : l₁.dropWhile p ≠ []) : (l₁ ++ l₂).dropWhile p = l₁.dropWhile p ++ l₂ := by
  induction l₁ with
  | nil => exact absurd rfl h
  | cons x xs ih =>
    by_cases hx : p x
    · rw [List.dropWhile_cons, if_pos hx] at h
      show (x :: (xs ++ l₂)).dropWhile p = _
      rw [List.dropWhile_cons, if_pos hx, List.dropWhile_cons, if_pos hx]
      exact ih h
    · show (x :: (xs ++ l₂)).dropWhile p = _
      rw [List.dropWhile_cons, if_neg hx, List.dropWhile_cons, if_neg hx]
      rfl

theorem stripChars_append_ws (l : List Char) (x : Char) (h : x.isWhitespace) :
    stripChars (l ++ [x]) = stripChars l := by
  by_cases hd : l.dropWhile Char.isWhitespace = []
  · have hall : ∀ y ∈ l, y.isWhitespace := List.dropWhile_eq_nil_iff.mp hd
    have hd2 : (l ++ [x]).dropWhile Char.isWhitespace = [] := by
      rw [List.dropWhile_eq_nil_iff]
      intro y hy
      rcases List.mem_append.mp hy with hy | hy
      · exact hall y hy
      · rw [List.mem_singleton.mp hy]
        exact h
    rw [stripChars_head_ws _ hd2, stripChars_head_ws _ hd]
  · rw [stripChars, stripChars, dropWhile_append_of_ne_nil _ _ _ hd,
      List.reverse_append]
    show (((x :: (l.dropWhile Char.isWhitespace).reverse)).dropWhile
      Char.isWhitespace).reverse = _
    rw [List.dropWhile_cons, if_pos h]

theorem stripChars_eq_nil_iff (l : List Char) :
    stripChars l = [] ↔ ∀ x ∈ l, x.isWhitespace := by
  constructor
  · intro h x hx
    rw [stripChars] at h
    have h2 : ((l.dropWhile Char.isWhitespace).reverse.dropWhile Char.isWhitespace) = [] := by
      have := congrArg List.reverse h
      simpa using this
    have h3 : ∀ y ∈ (l.dropWhile Char.isWhitespace).reverse, y.isWhitespace :=
      List.dropWhile_eq_nil_iff.mp h2
    have h4 : ∀ y ∈ l.dropWhile Char.isWhitespace, y.isWhitespace := by
      intro y hy
      exact h3 y (List.mem_reverse.mpr hy)
    have hsplit := List.takeWhile_append_dropWhile (p := Char.isWhitespace) (l := l)
    rw [← hsplit] at hx
    rcases List.mem_append.mp hx with hx | hx
    · exact List.mem_takeWhile_imp hx
    · exact h4 x hx
  · intro h
    apply stripChars_head_ws
    exact List.dropWhile_eq_nil_iff.mpr h

theorem stripChars_idem (l : List Char) : stripChars (stripChars l) = stripChars l := by
  by_cases hsc : stripChars l = []
  · rw [hsc]
    rfl
  · have h1 : (stripChars l).dropWhile Char.isWhitespace = stripChars l := by
      apply dropWhile_noop
      intro a ha
      rw [stripChars, List.head?_reverse] at ha
      have hne : (l.dropWhile Char.isWhitespace).reverse.dropWhile Char.isWhitespace ≠ [] := by
        intro hc
        apply hsc
        rw [stripChars, hc]
        rfl
      rw [getLast?_dropWhile _ _ hne, List.getLast?_reverse] at ha
      exact dropWhile_head?_not _ _ _ ha
    show (((stripChars l).dropWhile Char.isWhitespace).reverse.dropWhile
      Char.isWhitespace).reverse = stripChars l
    rw [h1]
    have h2 : (stripChars l).reverse =
        (l.dropWhile Char.isWhitespace).reverse.dropWhile Char.isWhitespace := by
      rw [stripChars, List.reverse_reverse]
    rw [h2, dropWhile_idem, ← h2, List.reverse_reverse]

theorem pyStrip_idem (s : String) : pyStrip (pyStrip s) = pyStrip s := by
  show (⟨stripChars (stripChars s.data)⟩ : String) = _
  rw [stripChars_idem]
  rfl

/-! ## Structural lemmas about `splitOnChar` -/

theorem splitOnChar_ne_nil (c : Char) (l : List Char) : splitOnChar c l ≠ [] := by
  cases l with
  | nil => simp [splitOnChar]
  | cons x xs =>
    rw [splitOnChar]
    cases h : splitOnChar c xs with
    | nil => simp
    | cons g gs =>
      by_cases hx : x = c
      · simp [hx]
      · simp [hx]

theorem splitOnChar_cons_of_eq (c x : Char) (t g : List Char) (gs : List (List Char))
    (h : splitOnChar c t = g :: gs) :
    splitOnChar c (x :: t) = if x = c then [] :: g :: gs else (x :: g) :: gs := by
  rw [splitOnChar, h]

theorem splitOnChar_glue (c : Char) (a b : List Char) :
    splitOnChar c (a ++ b) =
      (splitOnChar c a).dropLast ++
        ((splitOnChar c a).getLastD [] ++ (splitOnChar c b).headD []) ::
          (splitOnChar c b).tail := by
  induction a with
  | nil =>
    show splitOnChar c b = _
    cases h : splitOnChar c b with
    | nil => exact absurd h (splitOnChar_ne_nil c b)
    | cons g gs => rfl
  | cons x a2 ih =>
    cases ha : splitOnChar c a2 with
    | nil => exact absurd ha (splitOnChar_ne_nil c a2)
    | cons g0 gs0 =>
      cases hb : splitOnChar c b with
      | nil => exact absurd hb (splitOnChar_ne_nil c b)
      | cons h0 hs0 =>
        rw [ha] at ih
        rw [hb] at ih
        have hxa := splitOnChar_cons_of_eq c x a2 g0 gs0 ha
        cases gs0 with
        | nil =>
          simp only [List.dropLast_single, List.getLastD_cons, List.getLastD_nil,
            List.nil_append, List.headD_cons, List.tail_cons] at ih
          have hL := splitOnChar_cons_of_eq c x (a2 ++ b) (g0 ++ h0) hs0 ih
          show splitOnChar c (x :: (a2 ++ b)) = _
          rw [hL, hxa]
          by_cases hx : x = c
          · rw [if_pos hx, if_pos hx]
            simp
          · rw [if_neg hx, if_neg hx]
            simp
        | cons g1 gs1 =>
          simp only [List.dropLast_cons₂, List.getLastD_cons, List.headD_cons,
            List.tail_cons, List.cons_append] at ih
          have hL := splitOnChar_cons_of_eq c x (a2 ++ b)
            g0 (List.dropLast (g1 :: gs1) ++ (List.getLastD gs1 g1 ++ h0) :: hs0) ih
          show splitOnChar c (x :: (a2 ++ b)) = _
          rw [hL, hxa]
          by_cases hx : x = c
          · rw [if_pos hx, if_pos hx]
            simp only [List.dropLast_cons₂, List.getLastD_cons, List.headD_cons,
              List.tail_cons, List.cons_append]
          · rw [if_neg hx, if_neg hx]
            simp only [List.dropLast_cons₂, List.getLastD_cons, List.headD_cons,
              List.tail_cons, List.cons_append]

theorem dropLast_append_getLastD {α : Type} :
    ∀ (l : List α) (d : α), l ≠ [] → l.dropLast ++ [l.getLastD d] = l
  | [], _, h => absurd rfl h
  | [x], d, _ => by simp
  | x :: y :: t, d, _ => by
    rw [List.dropLast_cons₂, List.getLastD_cons]
    show x :: ((y :: t).dropLast ++ [(y :: t).getLastD x]) = _
    rw [dropLast_append_getLastD (y :: t) x (by simp)]

theorem splitOnChar_cons_sep (c : Char) (b : List Char) :
    splitOnChar c (c :: b) = [] :: splitOnChar c b := by
  cases h : splitOnChar c b with
  | nil => exact absurd h (splitOnChar_ne_nil c b)
  | cons g gs => rw [splitOnChar_cons_of_eq c c b g gs h, if_pos rfl]

theorem splitOnChar_append_sep (c : Char) (a b : List Char) :
    splitOnChar c (a ++ c :: b) = splitOnChar c a ++ splitOnChar c b := by
  have hg := splitOnChar_glue c a (c :: b)
  rw [splitOnChar_cons_sep c b] at hg
  simp only [List.headD_cons, List.tail_cons, List.append_nil] at hg
  rw [hg, List.append_cons, dropLast_append_getLastD _ _ (splitOnChar_ne_nil c a)]

theorem splitOnChar_concat_ne (c : Char) (m : List Char) (x : Char) (hx : x ≠ c) :
    splitOnChar c (m ++ [x]) =
      (splitOnChar c m).dropLast ++ [(splitOnChar c m).getLastD [] ++ [x]] := by
  have hx1 : splitOnChar c [x] = [[x]] := by
    rw [splitOnChar_cons_of_eq c x [] [] [] rfl, if_neg hx]
  have hg := splitOnChar_glue c m [x]
  rw [hx1] at hg
  simpa using hg

theorem not_mem_of_mem_splitOnChar (c : Char) (l : List Char) :
    ∀ t, t ∈ splitOnChar c l → c ∉ t := by
  induction l with
  | nil =>
    intro t ht
    have : t = [] := by simpa [splitOnChar] using ht
    rw [this]
    exact List.not_mem_nil c
  | cons x xs ih =>
    intro t ht
    cases hs : splitOnChar c xs with
    | nil => exact absurd hs (splitOnChar_ne_nil c xs)
    | cons g gs =>
      rw [splitOnChar_cons_of_eq c x xs g gs hs] at ht
      by_cases hx : x = c
      · rw [if_pos hx] at ht
        rcases List.mem_cons.mp ht with h | h
        · rw [h]
          exact List.not_mem_nil c
        · exact ih t (hs ▸ h)
      · rw [if_neg hx] at ht
        rcases List.mem_cons.mp ht with h | h
        · rw [h]
          intro hc
          rcases List.mem_cons.mp hc with h2 | h2
          · exact hx h2.symm
          · exact ih g (hs ▸ List.mem_cons_self g gs) h2
        · exact ih t (hs ▸ List.mem_cons_of_mem g h)

theorem splitOnChar_of_not_mem (c : Char) (l : List Char) (h : c ∉ l) :
    splitOnChar c l = [l] := by
  induction l with
  | nil => rfl
  | cons x xs ih =>
    have hx : c ≠ x := fun hh => h (by rw [hh]; exact List.mem_cons_self x xs)
    have hxs : c ∉ xs := fun hh => h (List.mem_cons_of_mem x hh)
    rw [splitOnChar_cons_of_eq c x xs xs [] (ih hxs), if_neg (fun hh => hx hh.symm)]

/-! ## Stripping is transparent to the trimmed token multiset -/

theorem mapStrip_split_dropWhile (l : List Char) :
    (splitOnChar ';' (l.dropWhile Char.isWhitespace)).map stripChars
      = (splitOnChar ';' l).map stripChars := by
  induction l with
  | nil => rfl
  | cons x xs ih =>
    by_cases hx : x.isWhitespace
    · have hxc : ¬x = ';' := by
        intro hh
        rw [hh] at hx
        exact absurd hx (by decide)
      rw [List.dropWhile_cons, if_pos hx]
      cases hs : splitOnChar ';' xs with
      | nil => exact absurd hs (splitOnChar_ne_nil ';' xs)
      | cons g gs =>
        rw [splitOnChar_cons_of_eq ';' x xs g gs hs, if_neg hxc, ih, hs,
          List.map_cons, List.map_cons, stripChars_cons_ws x g hx]
    · rw [List.dropWhile_cons, if_neg hx]

theorem mapStrip_split_concat_ws (m : List Char) (x : Char) (hx : x.isWhitespace) :
    (splitOnChar ';' (m ++ [x])).map stripChars = (splitOnChar ';' m).map stripChars := by
  have hxc : x ≠ ';' := by
    intro hh
    rw [hh] at hx
    exact absurd hx (by decide)
  rw [splitOnChar_concat_ne ';' m x hxc, List.map_append, List.map_cons, List.map_nil,
    stripChars_append_ws _ x hx]
  have hdec : List.map stripChars ((splitOnChar ';' m).dropLast ++
      [(splitOnChar ';' m).getLastD []]) = List.map stripChars (splitOnChar ';' m) := by
    rw [dropLast_append_getLastD _ _ (splitOnChar_ne_nil ';' m)]
  simpa using hdec

theorem mapStrip_split_stripEnd (m : List Char) :
    (splitOnChar ';' ((m.reverse.dropWhile Char.isWhitespace).reverse)).map stripChars
      = (splitOnChar ';' m).map stripChars := by
  induction m using List.reverseRecOn with
  | nil => rfl
  | append_singleton m x ih =>
    by_cases hx : x.isWhitespace
    · have h1 : (m ++ [x]).reverse.dropWhile Char.isWhitespace
          = m.reverse.dropWhile Char.isWhitespace := by
        rw [List.reverse_append]
        show ((x :: m.reverse).dropWhile Char.isWhitespace) = _
        rw [List.dropWhile_cons, if_pos hx]
      rw [h1, ih, mapStrip_split_concat_ws m x hx]
    · have h1 : (m ++ [x]).reverse.dropWhile Char.isWhitespace = x :: m.reverse := by
        rw [List.reverse_append]
        show ((x :: m.reverse).dropWhile Char.isWhitespace) = _
        rw [List.dropWhile_cons, if_neg hx]
      rw [h1]
      show (splitOnChar ';' ((x :: m.reverse).reverse)).map stripChars = _
      rw [List.reverse_cons, List.reverse_reverse]

theorem mapStrip_split_strip (l : List Char) :
    (splitOnChar ';' (stripChars l)).map stripChars = (splitOnChar ';' l).map stripChars := by
  show (splitOnChar ';'
      (((l.dropWhile Char.isWhitespace).reverse.dropWhile Char.isWhitespace).reverse)).map
      stripChars = _
  rw [mapStrip_split_stripEnd (l.dropWhile Char.isWhitespace), mapStrip_split_dropWhile]

/-! ## The sub-value sets of stored field values -/

theorem map_pyStrip_pySplit (s : String) :
    (pySplit s).map pyStrip
      = ((splitOnChar ';' s.data).map stripChars).map (fun g => (⟨g⟩ : String)) := by
  rw [pySplit, List.map_map, List.map_map]
  rfl

theorem subValues_pyStrip (s : String) : subValues (pyStrip s) = subValues s := by
  rw [subValues, subValues, map_pyStrip_pySplit, map_pyStrip_pySplit]
  show ((((splitOnChar ';' (stripChars s.data)).map stripChars).map _).toFinset \ _) = _
  rw [mapStrip_split_strip]

theorem pySplit_data_append (a b : String) :
    (a ++ ";" ++ b).data = a.data ++ ';' :: b.data := by
  rw [String.data_append, String.data_append]
  show a.data ++ [';'] ++ b.data = _
  rw [List.append_assoc]
  rfl

theorem pySplit_append (a b : String) : pySplit (a ++ ";" ++ b) = pySplit a ++ pySplit b := by
  rw [pySplit, pySplit, pySplit, pySplit_data_append, splitOnChar_append_sep, List.map_append]

theorem subValues_append (a b : String) :
    subValues (a ++ ";" ++ b) = subValues a ∪ subValues b := by
  rw [subValues, subValues, subValues, pySplit_append, List.map_append,
    List.toFinset_append, Finset.union_sdiff_distrib]

theorem subValues_of_strip_empty (s : String) (h : pyStrip s = "") : subValues s = ∅ := by
  have hd : stripChars s.data = [] := congrArg String.data h
  have hall : ∀ x ∈ s.data, x.isWhitespace := (stripChars_eq_nil_iff _).mp hd
  have hsep : ';' ∉ s.data := by
    intro hc
    exact absurd (hall ';' hc) (by decide)
  rw [subValues, pySplit, splitOnChar_of_not_mem _ _ hsep]
  simp only [List.map_cons, List.map_nil]
  have hs2 : pyStrip (⟨s.data⟩ : String) = "" := h
  rw [hs2]
  simp

theorem mem_subValues_token (m d : String) (hd : d ∈ pySplit m) (hne : pyStrip d = d)
    (h0 : d ≠ "") : d ∈ subValues m := by
  rw [subValues]
  refine Finset.mem_sdiff.mpr ⟨?_, ?_⟩
  · exact List.mem_toFinset.mpr (List.mem_map.mpr ⟨d, hd, hne⟩)
  · simp [h0]

theorem subValues_no_sep (s : String) (h : ';' ∉ s.data) :
    subValues s = ({pyStrip s} : Finset String) \ {""} := by
  rw [subValues, pySplit, splitOnChar_of_not_mem _ _ h]
  simp only [List.map_cons, List.map_nil]
  have : pyStrip (⟨s.data⟩ : String) = pyStrip s := rfl
  rw [this]
  rfl

theorem pySplit_no_sep (m d : String) (h : d ∈ pySplit m) : ';' ∉ d.data := by
  rw [pySplit] at h
  rcases List.mem_map.mp h with ⟨t, ht, heq⟩
  rw [← heq]
  exact not_mem_of_mem_splitOnChar ';' m.data t ht

/-! ## Properties of the per-field merge -/

theorem mergedValue_copy (m v : String) (hm : pyStrip m = "") (hv : pyStrip v ≠ "") :
    mergedValue m v = pyStrip v := by
  rw [mergedValue, if_pos ⟨hm, hv⟩]

theorem mergedValue_blank (m v : String) (hv : pyStrip v = "") : mergedValue m v = m := by
  have h1 : ¬(pyStrip m = "" ∧ pyStrip v ≠ "") := fun hh => hh.2 hv
  have h2 : ¬(pyStrip v ≠ "" ∧ pyStrip v ∉ pySplit (pyStrip m)) := fun hh => hh.1 hv
  rw [mergedValue, if_neg h1, if_neg h2]

theorem pySplit_empty : pySplit "" = [""] := rfl

theorem mergedValue_noop_mem (m v : String) (h : pyStrip v ∈ pySplit (pyStrip m)) :
    mergedValue m v = m := by
  by_cases hv : pyStrip v = ""
  · exact mergedValue_blank m v hv
  · have hm : pyStrip m ≠ "" := by
      intro hc
      rw [hc, pySplit_empty] at h
      exact hv (List.mem_singleton.mp h)
    have h1 : ¬(pyStrip m = "" ∧ pyStrip v ≠ "") := fun hh => hm hh.1
    have h2 : ¬(pyStrip v ≠ "" ∧ pyStrip v ∉ pySplit (pyStrip m)) := fun hh => hh.2 h
    rw [mergedValue, if_neg h1, if_neg h2]

theorem subValues_mergedValue (mraw v : String) :
    subValues (mergedValue mraw v) = subValues mraw ∪ subValues v := by
  by_cases h1 : pyStrip mraw = "" ∧ pyStrip v ≠ ""
  · rw [mergedValue, if_pos h1, subValues_pyStrip, subValues_of_strip_empty mraw h1.1]
    rw [Finset.empty_union]
  · by_cases h2 : pyStrip v ≠ "" ∧ pyStrip v ∉ pySplit (pyStrip mraw)
    · have hm : pyStrip mraw ≠ "" := fun hc => h1 ⟨hc, h2.1⟩
      rw [mergedValue, if_neg h1, if_pos h2, if_pos hm, subValues_append,
        subValues_pyStrip, subValues_pyStrip]
    · rw [mergedValue, if_neg h1, if_neg h2]
      have hsub : subValues v ⊆ subValues mraw := by
        by_cases hv : pyStrip v = ""
        · rw [subValues_of_strip_empty v hv]
          exact Finset.empty_subset _
        · have hmem : pyStrip v ∈ pySplit (pyStrip mraw) := by
            rcases not_and_or.mp h2 with h | h
            · exact absurd (not_not.mp h) hv
            · exact not_not.mp h
          have hnosep : ';' ∉ (pyStrip v).data := pySplit_no_sep _ _ hmem
          rw [← subValues_pyStrip v, subValues_no_sep _ hnosep, pyStrip_idem]
          intro y hy
          rcases Finset.mem_sdiff.mp hy with ⟨hy1, hy2⟩
          rw [Finset.mem_singleton.mp hy1, ← subValues_pyStrip mraw]
          exact mem_subValues_token _ _ hmem (pyStrip_idem v) hv
      exact (Finset.union_eq_left.mpr hsub).symm

/-! ## Field access through the merger -/

theorem cget_mergeField_ne (m : Contact) (k v k2 : String) (h : k2 ≠ k) :
    cget (mergeField m k v) k2 = cget m k2 := by
  rw [mergeField]
  by_cases hr : k = "uid" ∨ k = "match" ∨ k = "certainty"
  · rw [if_pos hr]
  · rw [if_neg hr]
    by_cases hb1 : pyStrip (cget m k) = "" ∧ pyStrip v ≠ ""
    · rw [if_pos hb1, cget_cset_ne _ _ _ _ h]
    · rw [if_neg hb1]
      by_cases hb2 : pyStrip v ≠ "" ∧ pyStrip v ∉ pySplit (pyStrip (cget m k))
      · rw [if_pos hb2, cget_cset_ne _ _ _ _ h]
      · rw [if_neg hb2]

theorem cget_mergeField_self (m : Contact) (k v : String)
    (hr : ¬(k = "uid" ∨ k = "match" ∨ k = "certainty")) :
    cget (mergeField m k v) k = mergedValue (cget m k) v := by
  rw [mergeField, if_neg hr, mergedValue]
  by_cases hb1 : pyStrip (cget m k) = "" ∧ pyStrip v ≠ ""
  · rw [if_pos hb1, if_pos hb1, cget_cset_self]
  · rw [if_neg hb1, if_neg hb1]
    by_cases hb2 : pyStrip v ≠ "" ∧ pyStrip v ∉ pySplit (pyStrip (cget m k))
    · rw [if_pos hb2, if_pos hb2, cget_cset_self]
    · rw [if_neg hb2, if_neg hb2]

theorem pyStrip_empty : pyStrip "" = "" := rfl

theorem cget_merge_contacts (d : Contact) :
    ∀ (m : Contact) (k : String), (contactKeys d).Nodup →
    cget (merge_contacts m d) k =
      if k = "uid" ∨ k = "match" ∨ k = "certainty" then cget m k
      else mergedValue (cget m k) (cget d k) := by
  induction d with
  | nil =>
    intro m k _
    show cget m k = _
    by_cases hr : k = "uid" ∨ k = "match" ∨ k = "certainty"
    · rw [if_pos hr]
    · rw [if_neg hr]
      show cget m k = mergedValue (cget m k) ""
      exact (mergedValue_blank _ _ pyStrip_empty).symm
  | cons p rest ih =>
    intro m k hnd
    have hnd1 : (p.1 :: contactKeys rest).Nodup := hnd
    have hh := List.nodup_cons.mp hnd1
    have hnd2 : (contactKeys rest).Nodup := hh.2
    show cget (merge_contacts (mergeField m p.1 p.2) rest) k = _
    rw [ih (mergeField m p.1 p.2) k hnd2]
    by_cases hr : k = "uid" ∨ k = "match" ∨ k = "certainty"
    · rw [if_pos hr, if_pos hr]
      by_cases hpk : p.1 = k
      · have hres : p.1 = "uid" ∨ p.1 = "match" ∨ p.1 = "certainty" := by
          rw [hpk]
          exact hr
        rw [mergeField, if_pos hres]
      · exact cget_mergeField_ne m p.1 p.2 k (fun hh2 => hpk hh2.symm)
    · rw [if_neg hr, if_neg hr]
      by_cases hpk : p.1 = k
      · have hck : cget (p :: rest) k = p.2 := by
          simp only [cget, if_pos hpk]
        have hrest : cget rest k = "" := by
          apply cget_eq_empty_of_not_mem rest k
          rw [← hpk]
          exact hh.1
        rw [hck, hrest, mergedValue_blank _ _ pyStrip_empty, hpk,
          cget_mergeField_self m k p.2 hr]
      · have hck : cget (p :: rest) k = cget rest k := by
          simp only [cget, if_neg hpk]
        rw [hck, cget_mergeField_ne m p.1 p.2 k (fun hh2 => hpk hh2.symm)]

theorem merge_subValues_mono (k : String)
    (hk : ¬(k = "uid" ∨ k = "match" ∨ k = "certainty")) :
    ∀ (ds : List Contact) (m : Contact), (∀ d ∈ ds, (contactKeys d).Nodup) →
    subValues (cget m k) ⊆ subValues (cget (ds.foldl merge_contacts m) k) := by
  intro ds
  induction ds with
  | nil => exact fun m _ => subset_rfl
  | cons d ds ih =>
    intro m hnds
    show subValues (cget m k) ⊆
      subValues (cget (ds.foldl merge_contacts (merge_contacts m d)) k)
    apply subset_trans ?_
      (ih (merge_contacts m d) (fun x hx => hnds x (List.mem_cons_of_mem d hx)))
    rw [cget_merge_contacts d m k (hnds d (List.mem_cons_self d ds)), if_neg hk,
      subValues_mergedValue]
    exact Finset.subset_union_left

/-! ## Claim C5: merged sub-value sets -/

/-- C5: for every non-reserved field, one merge step makes the master's
sub-value set (the `;`-separated segments, compared after whitespace
trimming, blanks ignored) exactly the union of the two records' sub-value
sets — in particular a superset of both, whether or not they are disjoint;
and across any sequence of merges every absorbed record's sub-value set is
contained in the final master's. -/
theorem claim_C5_merge_subvalues_union (k : String)
    (hk : ¬(k = "uid" ∨ k = "match" ∨ k = "certainty")) :
    (∀ m d : Contact, (contactKeys d).Nodup →
      subValues (cget (merge_contacts m d) k)
        = subValues (cget m k) ∪ subValues (cget d k)) ∧
    (∀ (m : Contact) (ds : List Contact), (∀ d ∈ ds, (contactKeys d).Nodup) →
      ∀ d ∈ ds,
        subValues (cget d k) ⊆ subValues (cget (ds.foldl merge_contacts m) k)) := by
  constructor
  · intro m d hnd
    rw [cget_merge_contacts d m k hnd, if_neg hk, subValues_mergedValue]
  · intro m ds
    induction ds generalizing m with
    | nil =>
      intro _ d hd
      exact absurd hd (List.not_mem_nil d)
    | cons d0 ds ih =>
      intro hnds d hd
      show subValues (cget d k) ⊆
        subValues (cget (ds.foldl merge_contacts (merge_contacts m d0)) k)
      rcases List.mem_cons.mp hd with h | h
      · subst h
        apply subset_trans ?_ (merge_subValues_mono k hk ds (merge_contacts m d)
          (fun x hx => hnds x (List.mem_cons_of_mem d hx)))
        rw [cget_merge_contacts d m k (hnds d (List.mem_cons_self d ds)), if_neg hk,
          subValues_mergedValue]
        exact Finset.subset_union_right
      · exact ih (merge_contacts m d0)
          (fun x hx => hnds x (List.mem_cons_of_mem d0 hx)) d h

/-- C5 witness: a concrete merge where the sub-value sets unite. -/
theorem claim_C5_witness :
    subValues (cget (merge_contacts [("tel", "1;2")] [("uid", "9"), ("tel", "3")]) "tel")
      = subValues (cget [("tel", "1;2")] "tel")
        ∪ subValues (cget ([("uid", "9"), ("tel", "3")] : Contact) "tel") :=
  (claim_C5_merge_subvalues_union "tel" (by decide)).1 _ _ (by decide)

/-! ## Claim C6: copying into an empty master field -/

/-- C6 counterexample: with the master lacking the field `note` and the
duplicate carrying `note = " x "`, the merge stores the trimmed value
`"x"`, not the duplicate's value verbatim.  This refutes the
character-for-character copy claim. -/
theorem claim_C6_counterexample :
    pyStrip (cget ([("uid", "0")] : Contact) "note") = "" ∧
    cget (merge_contacts [("uid", "0")] [("uid", "1"), ("note", " x ")]) "note"
      ≠ cget ([("uid", "1"), ("note", " x ")] : Contact) "note" := by
  constructor
  · decide
  · decide

/-- C6 (amended): for a non-reserved field whose master value is empty or
absent after trimming, and whose duplicate value is non-blank, the merge
copies the duplicate's value stripped of surrounding whitespace (and when
the duplicate's value is blank, nothing is copied at all). -/
theorem claim_C6_amended_copy_trimmed (m d : Contact) (k : String)
    (hnd : (contactKeys d).Nodup)
    (hk : ¬(k = "uid" ∨ k = "match" ∨ k = "certainty"))
    (hm : pyStrip (cget m k) = "") (hv : pyStrip (cget d k) ≠ "") :
    cget (merge_contacts m d) k = pyStrip (cget d k) := by
  rw [cget_merge_contacts d m k hnd, if_neg hk, mergedValue_copy _ _ hm hv]

/-- C6 witness: the counterexample input under the amended statement. -/
theorem claim_C6_amended_witness :
    cget (merge_contacts [("uid", "0")] [("uid", "1"), ("note", " x ")]) "note" = "x" := by
  rw [claim_C6_amended_copy_trimmed [("uid", "0")] [("uid", "1"), ("note", " x ")]
    "note" (by decide) (by decide) (by decide) (by decide)]
  decide

/-! ## Claim C7: merging an already-present sub-value -/

/-- C7 counterexample: the duplicate's value `" b "` is exactly one of the
`;`-separated sub-values of the master's stored value `"a; b ;c"`, yet the
merge changes the master's field (the code strips the duplicate's value
before the membership test, and `"b"` is not among the stripped master's
sub-values).  This refutes the claim as stated. -/
theorem claim_C7_counterexample :
    (" b " ∈ pySplit (cget ([("note", "a; b ;c")] : Contact) "note")) ∧
    cget ([("uid", "1"), ("note", " b ")] : Contact) "note" = " b " ∧
    cget (merge_contacts [("note", "a; b ;c")] [("uid", "1"), ("note", " b ")]) "note"
      ≠ cget ([("note", "a; b ;c")] : Contact) "note" := by
  refine ⟨by decide, by decide, by decide⟩

/-- C7 (amended): the merge leaves a non-reserved master field unchanged
whenever the duplicate's trimmed value is exactly one of the `;`-separated
sub-values of the master's trimmed value. -/
theorem claim_C7_amended_dedup (m d : Contact) (k : String)
    (hnd : (contactKeys d).Nodup)
    (hk : ¬(k = "uid" ∨ k = "match" ∨ k = "certainty"))
    (h : pyStrip (cget d k) ∈ pySplit (pyStrip (cget m k))) :
    cget (merge_contacts m d) k = cget m k := by
  rw [cget_merge_contacts d m k hnd, if_neg hk, mergedValue_noop_mem _ _ h]

/-- C7 witness: merging a value already present (up to trimming) is a no-op. -/
theorem claim_C7_amended_witness :
    cget (merge_contacts [("note", "a;b")] [("uid", "1"), ("note", " b ")]) "note"
      = cget ([("note", "a;b")] : Contact) "note" :=
  claim_C7_amended_dedup [("note", "a;b")] [("uid", "1"), ("note", " b ")] "note"
    (by decide) (by decide) (by decide)

/-! ## Link mode: the annotated prefix is scoring-equivalent to the original -/

/-- The fields of a contact that the link-mode inner loop reads: the three
scoring fields and the uid. -/
def linkEquiv (a b : Contact) : Prop :=
  cget a "tel" = cget b "tel" ∧ cget a "email" = cget b "email" ∧
  cget a "fn" = cget b "fn" ∧ cget a "uid" = cget b "uid"

theorem linkEquiv_refl (c : Contact) : linkEquiv c c := ⟨rfl, rfl, rfl, rfl⟩

theorem score_congr_right (a b b2 : Contact) (h : linkEquiv b b2) :
    compute_match_score a b = compute_match_score a b2 := by
  obtain ⟨h1, h2, h3, _⟩ := h
  have hp : phonesOf b = phonesOf b2 := by rw [phonesOf, phonesOf, h1]
  have he : emailsOf b = emailsOf b2 := by rw [emailsOf, emailsOf, h2]
  have hps : phone_scores a b = phone_scores a b2 := by
    rw [phone_scores, phone_scores, hp]
  have hes : email_scores a b = email_scores a b2 := by
    rw [email_scores, email_scores, he]
  rw [compute_match_score, compute_match_score, scoresList, scoresList, hps, hes,
    h1, h2, h3]

theorem findMatch_congr (cur : Contact) (t : ℚ) (acc done : List Contact)
    (h : List.Forall₂ linkEquiv acc done) :
    findMatch cur t acc = findMatch cur t done := by
  induction h with
  | nil => rfl
  | cons hab htail ih =>
    rw [findMatch, findMatch, score_congr_right cur _ _ hab, hab.2.2.2, ih]

theorem linkEquiv_annotate (c : Contact) (u : String) (s : ℚ) :
    linkEquiv (annotate c u s) c := by
  refine ⟨?_, ?_, ?_, ?_⟩ <;>
  · rw [annotate, cget_cset_ne _ _ _ _ (by decide), cget_cset_ne _ _ _ _ (by decide)]

/-- Specification-side view of link mode: each remaining contact is
annotated from the first match among the original earlier contacts. -/
def linkOutAux (t : ℚ) : List Contact → List Contact → List Contact
  | _, [] => []
  | done, c :: rest =>
      (match findMatch c t done with
       | some (u, s) => annotate c u s
       | none => c) :: linkOutAux t (done ++ [c]) rest

theorem link_foldl_eq (t : ℚ) :
    ∀ (rest acc done : List Contact), List.Forall₂ linkEquiv acc done →
    List.foldl (linkStep t) acc rest = acc ++ linkOutAux t done rest := by
  intro rest
  induction rest with
  | nil =>
    intro acc done _
    simp [linkOutAux]
  | cons c rest ih =>
    intro acc done h
    rw [List.foldl_cons]
    have hfm : findMatch c t acc = findMatch c t done := findMatch_congr c t acc done h
    have hstep : linkStep t acc c = acc ++ [match findMatch c t done with
        | some (u, s) => annotate c u s | none => c] := by
      rw [linkStep, hfm]
    rw [hstep]
    have hnew : linkEquiv (match findMatch c t done with
        | some (u, s) => annotate c u s | none => c) c := by
      cases hm : findMatch c t done with
      | none => exact linkEquiv_refl c
      | some p =>
        cases p with
        | mk u s => exact linkEquiv_annotate c u s
    have happ : List.Forall₂ linkEquiv
        (acc ++ [match findMatch c t done with
          | some (u, s) => annotate c u s | none => c]) (done ++ [c]) :=
      List.rel_append h (List.Forall₂.cons hnew List.Forall₂.nil)
    rw [ih _ _ happ, linkOutAux, List.append_assoc]
    rfl

theorem linkOutAux_length (t : ℚ) :
    ∀ (rest done : List Contact), (linkOutAux t done rest).length = rest.length := by
  intro rest
  induction rest with
  | nil => intro done; rfl
  | cons c rest ih =>
    intro done
    rw [linkOutAux, List.length_cons, ih, List.length_cons]

theorem linkOutAux_getElem (t : ℚ) :
    ∀ (rest done : List Contact) (i : Nat) (hi : i < rest.length),
    (linkOutAux t done rest)[i]? =
      some (match findMatch (rest.get ⟨i, hi⟩) t (done ++ rest.take i) with
            | some (u, s) => annotate (rest.get ⟨i, hi⟩) u s
            | none => rest.get ⟨i, hi⟩) := by
  intro rest
  induction rest with
  | nil =>
    intro done i hi
    simp at hi
  | cons c rest ih =>
    intro done i hi
    cases i with
    | zero =>
      rw [linkOutAux, List.getElem?_cons_zero, List.take_zero, List.append_nil]
      rfl
    | succ i =>
      rw [linkOutAux]
      rw [List.getElem?_cons_succ, ih (done ++ [c]) i (by simpa using hi),
        List.append_assoc]
      rfl

/-! ## Claim C1: link-mode behavior -/

/-- C1: in link mode (for either value of `dry_run`) the output has exactly
as many records as the input, and the record at every position `i` is the
input record annotated from the first earlier record (scanned in increasing
`j` order over the original prefix) whose score reaches the threshold
(inclusive): its `match` field becomes that candidate's uid, its
`certainty` the string form of that score, and no later candidate is
considered; records with no match are returned unchanged. -/
theorem claim_C1_link_mode (contacts : List Contact) (t : ℚ) (dry : Bool) :
    (deduplicate_contacts contacts t false dry).length = contacts.length ∧
    ∀ i ci, contacts[i]? = some ci →
      (deduplicate_contacts contacts t false dry)[i]? =
        some (match findMatch ci t (contacts.take i) with
              | some (u, s) => annotate ci u s
              | none => ci) := by
  have hout : deduplicate_contacts contacts t false dry = linkOutAux t [] contacts := by
    show List.foldl (linkStep t) [] contacts = _
    rw [link_foldl_eq t contacts [] [] List.Forall₂.nil]
    rfl
  constructor
  · rw [hout, linkOutAux_length]
  · intro i ci hci
    rcases List.getElem?_eq_some.mp hci with ⟨hi, hval⟩
    have hget : contacts.get ⟨i, hi⟩ = ci := hval
    rw [hout, linkOutAux_getElem t contacts [] i hi, List.nil_append, hget]

/-- C1 witness: the two-record phone scenario at threshold 80. -/
theorem claim_C1_witness :
    (deduplicate_contacts [phoneRecA, phoneRecB] 80 false false).length = 2 ∧
    (deduplicate_contacts [phoneRecA, phoneRecB] 80 false false)[1]? =
      some (match findMatch phoneRecB 80 ([phoneRecA, phoneRecB].take 1) with
            | some (u, s) => annotate phoneRecB u s
            | none => phoneRecB) := by
  have h := claim_C1_link_mode [phoneRecA, phoneRecB] 80 false
  exact ⟨h.1, h.2 1 phoneRecB rfl⟩

/-! ## Merge mode: length accounting -/

theorem absorb_length (t : ℚ) (dry : Bool) (c : Contact) :
    ∀ masters ms, absorb t dry c masters = some ms → ms.length = masters.length := by
  intro masters
  induction masters with
  | nil =>
    intro ms h
    rw [absorb] at h
    exact Option.noConfusion h
  | cons m rest ih =>
    intro ms h
    rw [absorb] at h
    by_cases hc : compute_match_score c m ≥ t
    · rw [if_pos hc] at h
      rw [← Option.some.inj h]
      simp
    · rw [if_neg hc] at h
      cases ha : absorb t dry c rest with
      | none =>
        rw [ha] at h
        exact absurd h (by simp)
      | some ms2 =>
        rw [ha] at h
        rw [Option.map_some'] at h
        rw [← Option.some.inj h]
        simp [ih ms2 ha]

theorem absorb_none_iff (t : ℚ) (dry : Bool) (c : Contact) :
    ∀ masters, absorb t dry c masters = none ↔
      ∀ m ∈ masters, compute_match_score c m < t := by
  intro masters
  induction masters with
  | nil =>
    constructor
    · intro _ m hm
      exact absurd hm (List.not_mem_nil m)
    · intro _
      rfl
  | cons m rest ih =>
    rw [absorb]
    by_cases hc : compute_match_score c m ≥ t
    · rw [if_pos hc]
      constructor
      · intro h
        exact absurd h (by simp)
      · intro h
        exact absurd (h m (List.mem_cons_self _ _)) (not_lt.mpr hc)
    · rw [if_neg hc]
      constructor
      · intro h m2 hm2
        rcases List.mem_cons.mp hm2 with h2 | h2
        · rw [h2]
          exact lt_of_not_ge hc
        · have hnone : absorb t dry c rest = none := by
            cases ha : absorb t dry c rest with
            | none => rfl
            | some ms2 =>
              rw [ha] at h
              exact absurd h (by simp)
          exact (ih.mp hnone) m2 h2
      · intro h
        have hnone : absorb t dry c rest = none :=
          ih.mpr (fun m2 hm2 => h m2 (List.mem_cons_of_mem _ hm2))
        rw [hnone]
        rfl

theorem mergeStep_length (t : ℚ) (dry : Bool) (ms : List Contact) (c : Contact) :
    (mergeStep t dry ms c).length ≤ ms.length + 1 := by
  rw [mergeStep]
  cases ha : absorb t dry c ms with
  | none => simp
  | some ms2 =>
    rw [absorb_length t dry c ms ms2 ha]
    omega

theorem merge_foldl_length (t : ℚ) (dry : Bool) :
    ∀ (L ms : List Contact),
    (List.foldl (mergeStep t dry) ms L).length ≤ ms.length + L.length := by
  intro L
  induction L with
  | nil =>
    intro ms
    simp
  | cons c L ih =>
    intro ms
    rw [List.foldl_cons]
    have h1 := ih (mergeStep t dry ms c)
    have h2 := mergeStep_length t dry ms c
    simp only [List.length_cons]
    omega

theorem merge_foldl_eq_iff (t : ℚ) (dry : Bool) :
    ∀ (L ms : List Contact),
    (List.foldl (mergeStep t dry) ms L).length = ms.length + L.length ↔
    (∀ j (hj : j < L.length), ∀ m ∈ ms ++ L.take j,
      compute_match_score (L.get ⟨j, hj⟩) m < t) := by
  intro L
  induction L with
  | nil =>
    intro ms
    constructor
    · intro _ j hj
      exact absurd hj (by simp)
    · intro _
      simp
  | cons c L ih =>
    intro ms
    rw [List.foldl_cons, mergeStep]
    cases ha : absorb t dry c ms with
    | some ms2 =>
      have hlen : ms2.length = ms.length := absorb_length t dry c ms ms2 ha
      constructor
      · intro h
        exfalso
        have hle := merge_foldl_length t dry L ms2
        simp only [List.length_cons] at h
        omega
      · intro h
        exfalso
        have h0 := h 0 (by simp)
        simp only [List.take_zero, List.append_nil] at h0
        have hnone : absorb t dry c ms = none := (absorb_none_iff t dry c ms).mpr h0
        rw [hnone] at ha
        exact Option.noConfusion ha
    | none =>
      change (List.foldl (mergeStep t dry) (ms ++ [c]) L).length
        = ms.length + (c :: L).length ↔ _
      have hlen2 : ms.length + (c :: L).length = (ms ++ [c]).length + L.length := by
        simp only [List.length_append, List.length_cons, List.length_nil]
        omega
      rw [hlen2, ih (ms ++ [c])]
      constructor
      · intro h j hj m hm
        cases j with
        | zero =>
          simp only [List.take_zero, List.append_nil] at hm
          exact (absorb_none_iff t dry c ms).mp ha m hm
        | succ j =>
          have hj2 : j < L.length := by simpa using hj
          have hmem : m ∈ (ms ++ [c]) ++ L.take j := by
            simp only [List.take_succ_cons] at hm
            rw [List.append_assoc]
            simpa using hm
          exact h j hj2 m hmem
      · intro h j hj m hm
        have hj2 : j + 1 < (c :: L).length := by
          simpa using Nat.succ_lt_succ hj
        have hmem : m ∈ ms ++ (c :: L).take (j + 1) := by
          simp only [List.take_succ_cons]
          rw [List.append_assoc] at hm
          simpa using hm
        exact h (j + 1) hj2 m hmem

theorem merge_foldl_id (t : ℚ) (dry : Bool) :
    ∀ (L ms : List Contact),
    (∀ j (hj : j < L.length), ∀ m ∈ ms ++ L.take j,
      compute_match_score (L.get ⟨j, hj⟩) m < t) →
    List.foldl (mergeStep t dry) ms L = ms ++ L := by
  intro L
  induction L with
  | nil =>
    intro ms _
    simp
  | cons c L ih =>
    intro ms h
    rw [List.foldl_cons, mergeStep]
    have h0 := h 0 (by simp)
    simp only [List.take_zero, List.append_nil] at h0
    have ha : absorb t dry c ms = none := (absorb_none_iff t dry c ms).mpr h0
    rw [ha]
    show List.foldl (mergeStep t dry) (ms ++ [c]) L = ms ++ (c :: L)
    have hrec : List.foldl (mergeStep t dry) (ms ++ [c]) L = (ms ++ [c]) ++ L := by
      apply ih
      intro j hj m hm
      have hj2 : j + 1 < (c :: L).length := by
        simpa using Nat.succ_lt_succ hj
      have hmem : m ∈ ms ++ (c :: L).take (j + 1) := by
        simp only [List.take_succ_cons]
        rw [List.append_assoc] at hm
        simpa using hm
      exact h (j + 1) hj2 m hmem
    rw [hrec, List.append_assoc]
    rfl

/-! ## Claim C2: merge-mode record counts -/

/-- C2: in merge mode (for either value of `dry_run`) the returned master
list is never longer than the input, it has the same length exactly when no
pair of input records scores at or above the threshold (the comparison is
the inclusive `score >= threshold` of the source), and in that case the
output is the input list itself, the masters in creation order. -/
theorem claim_C2_merge_mode_count (contacts : List Contact) (t : ℚ) (dry : Bool) :
    (deduplicate_contacts contacts t true dry).length ≤ contacts.length ∧
    ((deduplicate_contacts contacts t true dry).length = contacts.length ↔
      ∀ i j (hij : i < j) (hj : j < contacts.length),
        compute_match_score (contacts.get ⟨j, hj⟩)
          (contacts.get ⟨i, lt_trans hij hj⟩) < t) ∧
    ((∀ i j (hij : i < j) (hj : j < contacts.length),
        compute_match_score (contacts.get ⟨j, hj⟩)
          (contacts.get ⟨i, lt_trans hij hj⟩) < t) →
      deduplicate_contacts contacts t true dry = contacts) := by
  have hshow : deduplicate_contacts contacts t true dry
      = List.foldl (mergeStep t dry) [] contacts := rfl
  have hconv : (∀ j (hj : j < contacts.length),
      ∀ m ∈ ([] : List Contact) ++ contacts.take j,
        compute_match_score (contacts.get ⟨j, hj⟩) m < t) ↔
      (∀ i j (hij : i < j) (hj : j < contacts.length),
        compute_match_score (contacts.get ⟨j, hj⟩)
          (contacts.get ⟨i, lt_trans hij hj⟩) < t) := by
    constructor
    · intro h i j hij hj
      apply h j hj
      rw [List.nil_append]
      have hi : i < (contacts.take j).length := by
        rw [List.length_take]
        exact lt_min hij (lt_trans hij hj)
      have hv : (contacts.take j).get ⟨i, hi⟩ = contacts.get ⟨i, lt_trans hij hj⟩ := by
        rw [List.get_eq_getElem, List.get_eq_getElem, List.getElem_take]
      rw [← hv]
      exact List.get_mem _ _ _
    · intro h j hj m hm
      rw [List.nil_append] at hm
      rcases List.mem_iff_get.mp hm with ⟨⟨i, hi⟩, hval⟩
      have hi2 : i < j := by
        have hx := hi
        rw [List.length_take] at hx
        exact lt_of_lt_of_le hx (min_le_left _ _)
      have hval2 : contacts.get ⟨i, lt_trans hi2 hj⟩ = m := by
        rw [← hval, List.get_eq_getElem, List.get_eq_getElem, List.getElem_take]
      rw [← hval2]
      exact h i j hi2 hj
  refine ⟨?_, ?_, ?_⟩
  · rw [hshow]
    simpa using merge_foldl_length t dry contacts []
  · rw [hshow]
    have hiff := merge_foldl_eq_iff t dry contacts []
    simp only [List.length_nil, Nat.zero_add] at hiff
    rw [hiff, hconv]
  · intro h
    rw [hshow]
    have hid := merge_foldl_id t dry contacts [] (hconv.mpr h)
    rw [List.nil_append] at hid
    exact hid

/-- C2 witness: the two-record phone scenario: merge mode returns at most
two masters. -/
theorem claim_C2_witness :
    (deduplicate_contacts [phoneRecA, phoneRecB] 80 true false).length ≤ 2 :=
  (claim_C2_merge_mode_count [phoneRecA, phoneRecB] 80 false).1
